import Mathlib

/-!
Shallow embedding of `go/chat/attachment/crypto.go` (keybase chat attachment
streaming sign-then-encrypt construction) and proofs of the specification's
claims about it.

Byte strings are modelled as `List Nat` (each element one byte; the Go types
`[16]byte`, `[32]byte`, `[64]byte` appear as lists whose length is fixed by
hypothesis where a claim quantifies over them).  The external cryptographic
primitives (SHA-512, Ed25519, NaCl secretbox) are not part of the repository;
they are embedded as idealized executable models that have the primitives'
interface properties: output lengths, determinism, the secretbox seal/open
round trip, and signature verification of honestly produced signatures.
Everything else is translated directly from the Go source.
-/

-- ===========================================================================
-- Constants (from crypto.go)
-- ===========================================================================

def AttachmentNonceSize : Nat := 16

def SecretboxKeySize : Nat := 32

def SecretboxNonceSize : Nat := 24

/-- `ed25519.SignatureSize` (external constant used by crypto.go). -/
def SignatureSize : Nat := 64

/-- `secretbox.Overhead` (external constant used by crypto.go). -/
def SecretboxOverhead : Nat := 16

/-- The bytes of the Go constant `"keybase chat attachment\x00"`
(the ASCII context string followed by a terminating null byte). -/
def signatureDomainBytes : List Nat :=
  "keybase chat attachment\x00".toList.map Char.toNat

def PlaintextChunkLength : Nat := 1048576

def Bin32Tag : Nat := 0xc6

def Bin32Overhead : Nat := 5

def PacketLength : Nat :=
  PlaintextChunkLength + SignatureSize + SecretboxOverhead + Bin32Overhead

-- ===========================================================================
-- Idealized models of the external primitives
-- ===========================================================================

/-- Idealized model of `sha512.Sum512`: a deterministic 64-byte digest.
Only determinism and the output length matter for the claims. -/
def sha512 (m : List Nat) : List Nat :=
  (List.range 64).map (fun i => (m.sum + m.length + i) % 256)

/-- In the `agl/ed25519` key layout a 64-byte private key is the 32-byte seed
followed by the 32-byte public key; the public key is its second half. -/
def ed25519PublicKey (signKey : List Nat) : List Nat := signKey.drop 32

/-- Idealized model of a deterministic Ed25519 signature, computed from the
public key and the message: a 64-byte tag. -/
def mkSig (pubKey msg : List Nat) : List Nat :=
  (List.range 64).map (fun i => (pubKey.sum + msg.sum + msg.length + i) % 256)

/-- Idealized model of `ed25519.Sign`. -/
def ed25519Sign (signKey msg : List Nat) : List Nat :=
  mkSig (ed25519PublicKey signKey) msg

/-- Idealized model of `ed25519.Verify`: accepts exactly the signature that
signing under the matching private key produces. -/
def ed25519Verify (verifyKey msg sig : List Nat) : Bool :=
  decide (sig = mkSig verifyKey msg)

/-- Idealized model of the secretbox Poly1305 authenticator: a deterministic
16-byte tag over key, nonce and message. -/
def secretboxMac (key nonce m : List Nat) : List Nat :=
  (List.range 16).map (fun i => (key.sum + nonce.sum + m.sum + m.length + i) % 256)

/-- Idealized model of `secretbox.Seal nil m nonce key`: authenticated
encryption adding `secretbox.Overhead = 16` bytes.  (The model authenticates
but does not hide the payload; secrecy is irrelevant to the claims.) -/
def secretboxSeal (m nonce key : List Nat) : List Nat :=
  secretboxMac key nonce m ++ m

/-- Idealized model of `secretbox.Open nil c nonce key`: succeeds exactly on
outputs of `secretboxSeal` under the same key and nonce. -/
def secretboxOpen (c nonce key : List Nat) : Option (List Nat) :=
  if 16 ≤ c.length then
    if c.take 16 = secretboxMac key nonce (c.drop 16) then some (c.drop 16)
    else none
  else none

-- ===========================================================================
-- Big-endian integer encodings (encoding/binary)
-- ===========================================================================

/-- `binary.BigEndian.Uint32` on a 4-byte slice. -/
def u32be (bs : List Nat) : Nat :=
  bs.foldl (fun acc b => acc * 256 + b) 0

/-- `binary.BigEndian.PutUint32`: the 4 big-endian bytes of `n % 2^32`. -/
def u32beBytes (n : Nat) : List Nat :=
  [n / 2 ^ 24 % 256, n / 2 ^ 16 % 256, n / 2 ^ 8 % 256, n % 256]

/-- `binary.BigEndian.PutUint64`: the 8 big-endian bytes of `n % 2^64`. -/
def u64beBytes (n : Nat) : List Nat :=
  [n / 2 ^ 56 % 256, n / 2 ^ 48 % 256, n / 2 ^ 40 % 256, n / 2 ^ 32 % 256,
   n / 2 ^ 24 % 256, n / 2 ^ 16 % 256, n / 2 ^ 8 % 256, n % 256]

-- ===========================================================================
-- Single packet encoding and decoding (crypto.go lines 158–250)
-- ===========================================================================

/-- `makeChunkNonce`: the 16-byte stream nonce (a `[16]byte` in Go, so a
length-16 list here) followed by the 8-byte big-endian chunk number. -/
def makeChunkNonce (attachmentNonce : List Nat) (chunkNum : Nat) : List Nat :=
  attachmentNonce ++ u64beBytes chunkNum

/-- `makeSignatureInput`: context string, encryption key, chunk nonce, and the
SHA-512 hash of the plaintext chunk, concatenated. -/
def makeSignatureInput (plaintext encKey chunkNonce : List Nat) : List Nat :=
  signatureDomainBytes ++ encKey ++ chunkNonce ++ sha512 plaintext

/-- `packCiphertext`: a MessagePack bin32 frame, `0xc6` plus the 4-byte
big-endian length, followed by the ciphertext.  (The source panics when the
ciphertext exceeds `math.MaxUint32` bytes; no call site can reach that, every
sealed chunk being at most `PlaintextChunkLength + 80` bytes.) -/
def packCiphertext (ciphertext : List Nat) : List Nat :=
  Bin32Tag :: (u32beBytes ciphertext.length ++ ciphertext)

/-- `getPacketLen`. -/
def getPacketLen (plaintextLen : Nat) : Nat :=
  plaintextLen + SecretboxOverhead + SignatureSize + Bin32Overhead

/-- `sealPacket`. -/
def sealPacket (plaintext : List Nat) (chunkNum : Nat)
    (encKey signKey attachmentNonce : List Nat) : List Nat :=
  let chunkNonce := makeChunkNonce attachmentNonce chunkNum
  let signatureInput := makeSignatureInput plaintext encKey chunkNonce
  let signature := ed25519Sign signKey signatureInput
  let signedChunk := signature ++ plaintext
  let ciphertextChunk := secretboxSeal signedChunk chunkNonce encKey
  packCiphertext ciphertextChunk

/-- `AttachmentCryptoErrorType`: the six error tags.  Go errors also carry a
formatted message; callers switch on the tag, so the model keeps the tag. -/
inductive AttachmentCryptoErrorType where
  | BadSecretbox
  | ShortSignature
  | BadSignature
  | ShortMessagePackObject
  | WrongMessagePackFormat
  | WrongMessagePackLength
  deriving DecidableEq, Repr

/-- `unpackCiphertext`.  The Go comparison is
`uint64(length+5) != uint64(len(packet))` where `length` is a `uint32`, so the
`+ 5` is computed modulo `2^32` before widening. -/
def unpackCiphertext (packet : List Nat) :
    Except AttachmentCryptoErrorType (List Nat) :=
  if packet.length < Bin32Overhead then .error .ShortMessagePackObject
  else if packet.getD 0 0 ≠ Bin32Tag then .error .WrongMessagePackFormat
  else
    let length := u32be ((packet.drop 1).take 4)
    if (length + 5) % 2 ^ 32 ≠ packet.length then .error .WrongMessagePackLength
    else .ok (packet.drop Bin32Overhead)

/-- `openPacket`. -/
def openPacket (packet : List Nat) (chunkNum : Nat)
    (encKey verifyKey attachmentNonce : List Nat) :
    Except AttachmentCryptoErrorType (List Nat) :=
  match unpackCiphertext packet with
  | .error e => .error e
  | .ok ciphertext =>
    let chunkNonce := makeChunkNonce attachmentNonce chunkNum
    match secretboxOpen ciphertext chunkNonce encKey with
    | none => .error .BadSecretbox
    | some signedChunk =>
      if signedChunk.length < SignatureSize then .error .ShortSignature
      else
        let plaintext := signedChunk.drop SignatureSize
        let signatureInput := makeSignatureInput plaintext encKey chunkNonce
        if ed25519Verify verifyKey signatureInput (signedChunk.take SignatureSize)
        then .ok plaintext
        else .error .BadSignature

-- ===========================================================================
-- Streaming attachment encoding (crypto.go lines 256–311)
-- ===========================================================================

structure AttachmentEncoder where
  encKey : List Nat
  signKey : List Nat
  nonce : List Nat
  buf : List Nat
  chunkNum : Nat
  deriving DecidableEq, Repr

/-- `NewAttachmentEncoder`. -/
def NewAttachmentEncoder (encKey signKey nonce : List Nat) : AttachmentEncoder :=
  { encKey := encKey, signKey := signKey, nonce := nonce, buf := [], chunkNum := 0 }

/-- `AttachmentEncoder.sealOnePacket`.  The Go function panics when asked to
seal more bytes than are buffered; the panic is modelled as `none`. -/
def AttachmentEncoder.sealOnePacket (e : AttachmentEncoder) (plaintextLen : Nat) :
    Option (List Nat × AttachmentEncoder) :=
  if e.buf.length < plaintextLen then none
  else
    some (sealPacket (e.buf.take plaintextLen) e.chunkNum e.encKey e.signKey e.nonce,
      { e with buf := e.buf.drop plaintextLen, chunkNum := e.chunkNum + 1 })

/-- The `for len(e.buf) >= PlaintextChunkLength` loop of
`AttachmentEncoder.Write`, with `sealOnePacket`'s success case inlined
(inside the loop its guard `PlaintextChunkLength > len(e.buf)` is false, see
`sealOnePacket_of_le` below). -/
def encWriteLoop (e : AttachmentEncoder) : List Nat × AttachmentEncoder :=
  if h : PlaintextChunkLength ≤ e.buf.length then
    let packet := sealPacket (e.buf.take PlaintextChunkLength) e.chunkNum
      e.encKey e.signKey e.nonce
    let r := encWriteLoop { e with
      buf := e.buf.drop PlaintextChunkLength
      chunkNum := e.chunkNum + 1 }
    (packet ++ r.1, r.2)
  else ([], e)
termination_by e.buf.length
decreasing_by
  simp only [List.length_drop]
  simp only [PlaintextChunkLength] at *
  omega

/-- `AttachmentEncoder.Write`: append the plaintext to the buffer, then emit
as many full packets as the buffer holds. -/
def AttachmentEncoder.Write (e : AttachmentEncoder) (plaintext : List Nat) :
    List Nat × AttachmentEncoder :=
  encWriteLoop { e with buf := e.buf ++ plaintext }

/-- `AttachmentEncoder.Finish`: seal the remaining short (possibly empty)
buffer as the terminal packet.  The Go function panics when the buffer still
holds a full chunk; the panic is modelled as `none`. -/
def AttachmentEncoder.Finish (e : AttachmentEncoder) :
    Option (List Nat × AttachmentEncoder) :=
  if PlaintextChunkLength ≤ e.buf.length then none
  else e.sealOnePacket e.buf.length

/-- The buffer lengths observed at each test of `Write`'s loop guard
(instrumentation for the memory-bound claim; not part of the source). -/
def encLoopBufLens (e : AttachmentEncoder) : List Nat :=
  if h : PlaintextChunkLength ≤ e.buf.length then
    e.buf.length :: encLoopBufLens { e with
      buf := e.buf.drop PlaintextChunkLength
      chunkNum := e.chunkNum + 1 }
  else [e.buf.length]
termination_by e.buf.length
decreasing_by
  simp only [List.length_drop]
  simp only [PlaintextChunkLength] at *
  omega

-- ===========================================================================
-- Streaming attachment decoding (crypto.go lines 317–396)
-- ===========================================================================

structure AttachmentDecoder where
  encKey : List Nat
  verifyKey : List Nat
  nonce : List Nat
  buf : List Nat
  chunkNum : Nat
  err : Option AttachmentCryptoErrorType
  deriving DecidableEq, Repr

/-- `NewAttachmentDecoder`. -/
def NewAttachmentDecoder (encKey verifyKey nonce : List Nat) : AttachmentDecoder :=
  { encKey := encKey, verifyKey := verifyKey, nonce := nonce, buf := [],
    chunkNum := 0, err := none }

/-- `AttachmentDecoder.openOnePacket`.  The Go function panics when asked to
open more bytes than are buffered; the panic is modelled as `none`.  On a
packet-opening error the state is unchanged (the failed packet's bytes stay
in the buffer). -/
def AttachmentDecoder.openOnePacket (d : AttachmentDecoder) (packetLen : Nat) :
    Option (Except AttachmentCryptoErrorType (List Nat) × AttachmentDecoder) :=
  if d.buf.length < packetLen then none
  else
    match openPacket (d.buf.take packetLen) d.chunkNum d.encKey d.verifyKey d.nonce with
    | .error e => some (.error e, d)
    | .ok plaintext =>
      some (.ok plaintext,
        { d with buf := d.buf.drop packetLen, chunkNum := d.chunkNum + 1 })

/-- The `for len(d.buf) >= PacketLength` loop of `AttachmentDecoder.Write`,
with `openOnePacket`'s success case inlined (inside the loop its guard is
false, see `openOnePacket_of_le` below).  On an error the loop returns the
error, discards the plaintext opened so far in this call, and records the
error in the state's sticky slot. -/
def decWriteLoop (d : AttachmentDecoder) :
    (List Nat × Option AttachmentCryptoErrorType) × AttachmentDecoder :=
  if h : PacketLength ≤ d.buf.length then
    match openPacket (d.buf.take PacketLength) d.chunkNum d.encKey d.verifyKey d.nonce with
    | .error e => (([], some e), { d with err := some e })
    | .ok plaintext =>
      let r := decWriteLoop { d with
        buf := d.buf.drop PacketLength
        chunkNum := d.chunkNum + 1 }
      match r.1.2 with
      | some e => (([], some e), r.2)
      | none => ((plaintext ++ r.1.1, none), r.2)
  else (([], none), d)
termination_by d.buf.length
decreasing_by
  simp only [List.length_drop]
  simp only [PacketLength, PlaintextChunkLength, SignatureSize, SecretboxOverhead,
    Bin32Overhead] at *
  omega

/-- `AttachmentDecoder.Write`: the returned pair is Go's `([]byte, error)`
pair; the second component is the decoder after the call. -/
def AttachmentDecoder.Write (d : AttachmentDecoder) (ciphertext : List Nat) :
    (List Nat × Option AttachmentCryptoErrorType) × AttachmentDecoder :=
  match d.err with
  | some e => (([], some e), d)
  | none => decWriteLoop { d with buf := d.buf ++ ciphertext }

/-- `AttachmentDecoder.Finish`: open the remaining bytes as the terminal
short packet.  The Go function panics when the buffer still holds a full
packet; the panic is modelled as `none` (the outer `Option`). -/
def AttachmentDecoder.Finish (d : AttachmentDecoder) :
    Option ((List Nat × Option AttachmentCryptoErrorType) × AttachmentDecoder) :=
  match d.err with
  | some e => some (([], some e), d)
  | none =>
    if PacketLength ≤ d.buf.length then none
    else
      match openPacket d.buf d.chunkNum d.encKey d.verifyKey d.nonce with
      | .error e => some (([], some e), { d with err := some e })
      | .ok plaintext =>
        some ((plaintext, none),
          { d with buf := [], chunkNum := d.chunkNum + 1 })

-- ===========================================================================
-- All-at-once wrapper functions (crypto.go lines 402–431)
-- ===========================================================================

/-- `GetSealedSize`. -/
def GetSealedSize (plaintextLen : Nat) : Nat :=
  let fullChunks := plaintextLen / PlaintextChunkLength
  let totalLen := fullChunks * getPacketLen PlaintextChunkLength
  let remainingPlaintext := plaintextLen % PlaintextChunkLength
  totalLen + getPacketLen remainingPlaintext

/-- `SealWholeAttachment` (`none` would be the unreachable `Finish` panic). -/
def SealWholeAttachment (plaintext encKey signKey nonce : List Nat) :
    Option (List Nat) :=
  let r := (NewAttachmentEncoder encKey signKey nonce).Write plaintext
  match r.2.Finish with
  | none => none
  | some r2 => some (r.1 ++ r2.1)

/-- `OpenWholeAttachment` (`none` would be the unreachable `Finish` panic). -/
def OpenWholeAttachment (sealed encKey verifyKey nonce : List Nat) :
    Option (Except AttachmentCryptoErrorType (List Nat)) :=
  let r := (NewAttachmentDecoder encKey verifyKey nonce).Write sealed
  match r.1.2 with
  | some e => some (.error e)
  | none =>
    match r.2.Finish with
    | none => none
    | some r2 =>
      match r2.1.2 with
      | some e => some (.error e)
      | none => some (.ok (r.1.1 ++ r2.1.1))

-- ===========================================================================
-- Basic length lemmas
-- ===========================================================================

@[simp] lemma sha512_length (m : List Nat) : (sha512 m).length = 64 := by
  simp [sha512]

@[simp] lemma mkSig_length (pk msg : List Nat) : (mkSig pk msg).length = 64 := by
  simp [mkSig]

@[simp] lemma ed25519Sign_length (sk msg : List Nat) :
    (ed25519Sign sk msg).length = 64 := by
  simp [ed25519Sign]

@[simp] lemma secretboxMac_length (k n m : List Nat) :
    (secretboxMac k n m).length = 16 := by
  simp [secretboxMac]

@[simp] lemma u32beBytes_length (n : Nat) : (u32beBytes n).length = 4 := by
  simp [u32beBytes]

@[simp] lemma u64beBytes_length (n : Nat) : (u64beBytes n).length = 8 := by
  simp [u64beBytes]

@[simp] lemma signatureDomainBytes_length : signatureDomainBytes.length = 24 := by
  decide

@[simp] lemma secretboxSeal_length (m n k : List Nat) :
    (secretboxSeal m n k).length = m.length + 16 := by
  simp only [secretboxSeal, List.length_append, secretboxMac_length]
  omega

@[simp] lemma packCiphertext_length (c : List Nat) :
    (packCiphertext c).length = c.length + 5 := by
  simp only [packCiphertext, List.length_cons, List.length_append, u32beBytes_length]
  omega

lemma sealPacket_length (pt : List Nat) (i : Nat) (k sk non : List Nat) :
    (sealPacket pt i k sk non).length = pt.length + 85 := by
  simp only [sealPacket, packCiphertext_length, secretboxSeal_length,
    List.length_append, ed25519Sign_length]
  omega

-- ===========================================================================
-- Primitive round trips
-- ===========================================================================

lemma secretboxOpen_seal (m n k : List Nat) :
    secretboxOpen (secretboxSeal m n k) n k = some m := by
  have hlen := secretboxMac_length k n m
  have ht : (secretboxMac k n m ++ m).take 16 = secretboxMac k n m := by
    have := List.take_left (secretboxMac k n m) m
    rwa [hlen] at this
  have hd : (secretboxMac k n m ++ m).drop 16 = m := by
    have := List.drop_left (secretboxMac k n m) m
    rwa [hlen] at this
  simp only [secretboxOpen, secretboxSeal, List.length_append, hlen, ht, hd]
  simp

lemma ed25519Verify_sign (sk msg : List Nat) :
    ed25519Verify (ed25519PublicKey sk) msg (ed25519Sign sk msg) = true := by
  simp [ed25519Verify, ed25519Sign]

lemma u32be_u32beBytes (n : Nat) (h : n < 2 ^ 32) : u32be (u32beBytes n) = n := by
  simp only [u32be, u32beBytes, List.foldl]
  have h24 : (2:Nat) ^ 24 = 16777216 := by norm_num
  have h16 : (2:Nat) ^ 16 = 65536 := by norm_num
  have h8 : (2:Nat) ^ 8 = 256 := by norm_num
  have h32 : (2:Nat) ^ 32 = 4294967296 := by norm_num
  rw [h24, h16, h8] at *
  rw [h32] at h
  omega

lemma unpackCiphertext_pack (c : List Nat) (h : c.length + 5 < 2 ^ 32) :
    unpackCiphertext (packCiphertext c) = .ok c := by
  have hlen : (packCiphertext c).length = c.length + 5 := packCiphertext_length c
  have htake : ((packCiphertext c).drop 1).take 4 = u32beBytes c.length := by
    simp only [packCiphertext, List.drop_succ_cons, List.drop_zero]
    have := List.take_left (u32beBytes c.length) c
    rwa [u32beBytes_length] at this
  have hdrop : (packCiphertext c).drop 5 = c := by
    simp only [packCiphertext, List.drop_succ_cons]
    have := List.drop_left (u32beBytes c.length) c
    rwa [u32beBytes_length] at this
  rw [unpackCiphertext]
  rw [hlen, htake, u32be_u32beBytes c.length (by omega)]
  have hc1 : ¬ (c.length + 5 < Bin32Overhead) := by
    simp [Bin32Overhead]
  have hc2 : ¬ ((packCiphertext c).getD 0 0 ≠ Bin32Tag) := by
    simp [packCiphertext]
  have hc3 : ¬ ((c.length + 5) % 2 ^ 32 ≠ c.length + 5) := by
    rw [Nat.mod_eq_of_lt h]
    simp
  rw [if_neg hc1, if_neg hc2, if_neg hc3]
  simp only [Bin32Overhead]
  rw [hdrop]

lemma openPacket_sealPacket (pt : List Nat) (i : Nat) (k sk non : List Nat)
    (h : pt.length + 85 < 2 ^ 32) :
    openPacket (sealPacket pt i k sk non) i k (ed25519PublicKey sk) non = .ok pt := by
  have hsig := ed25519Sign_length sk
    (makeSignatureInput pt k (makeChunkNonce non i))
  have hunpack : unpackCiphertext (sealPacket pt i k sk non)
      = .ok (secretboxSeal
          (ed25519Sign sk (makeSignatureInput pt k (makeChunkNonce non i)) ++ pt)
          (makeChunkNonce non i) k) := by
    rw [sealPacket]
    apply unpackCiphertext_pack
    simp only [secretboxSeal_length, List.length_append, hsig]
    omega
  have htake : (ed25519Sign sk (makeSignatureInput pt k (makeChunkNonce non i))
      ++ pt).take SignatureSize
      = ed25519Sign sk (makeSignatureInput pt k (makeChunkNonce non i)) := by
    have := List.take_left
      (ed25519Sign sk (makeSignatureInput pt k (makeChunkNonce non i))) pt
    rwa [hsig] at this
  have hdrop : (ed25519Sign sk (makeSignatureInput pt k (makeChunkNonce non i))
      ++ pt).drop SignatureSize = pt := by
    have := List.drop_left
      (ed25519Sign sk (makeSignatureInput pt k (makeChunkNonce non i))) pt
    rwa [hsig] at this
  have hshort : ¬ ((ed25519Sign sk (makeSignatureInput pt k (makeChunkNonce non i))
      ++ pt).length < SignatureSize) := by
    simp only [List.length_append, hsig, SignatureSize]
    omega
  rw [openPacket, hunpack]
  simp only [secretboxOpen_seal, hdrop, htake, ed25519Verify_sign, if_neg hshort]
  simp

-- ===========================================================================
-- Encoder loop characterization
-- ===========================================================================

/-- Inside `Write`'s loop, `sealOnePacket`'s panic guard is false. -/
lemma sealOnePacket_of_le (e : AttachmentEncoder) (n : Nat) (h : n ≤ e.buf.length) :
    e.sealOnePacket n
      = some (sealPacket (e.buf.take n) e.chunkNum e.encKey e.signKey e.nonce,
          { e with buf := e.buf.drop n, chunkNum := e.chunkNum + 1 }) := by
  simp [AttachmentEncoder.sealOnePacket, Nat.not_lt.mpr h]

/-- Inside `Write`'s loop, `openOnePacket`'s panic guard is false. -/
lemma openOnePacket_of_le (d : AttachmentDecoder) (n : Nat) (h : n ≤ d.buf.length) :
    d.openOnePacket n
      = match openPacket (d.buf.take n) d.chunkNum d.encKey d.verifyKey d.nonce with
        | .error e => some (.error e, d)
        | .ok pt =>
          some (.ok pt, { d with buf := d.buf.drop n, chunkNum := d.chunkNum + 1 }) := by
  simp only [AttachmentDecoder.openOnePacket, if_neg (Nat.not_lt.mpr h)]

lemma encWriteLoop_spec :
    ∀ (N : Nat) (e : AttachmentEncoder), e.buf.length ≤ N →
      (encWriteLoop e).2
        = { e with
            buf := e.buf.drop
              (PlaintextChunkLength * (e.buf.length / PlaintextChunkLength))
            chunkNum := e.chunkNum + e.buf.length / PlaintextChunkLength } ∧
      (encWriteLoop e).1.length
        = e.buf.length / PlaintextChunkLength * PacketLength := by
  intro N
  induction N with
  | zero =>
    intro e he
    have hlt : ¬ PlaintextChunkLength ≤ e.buf.length := by
      simp only [PlaintextChunkLength]; omega
    have hq : e.buf.length / PlaintextChunkLength = 0 := by
      simp only [PlaintextChunkLength] at *; omega
    rw [encWriteLoop, dif_neg hlt]
    simp [hq]
  | succ N ih =>
    intro e he
    by_cases h : PlaintextChunkLength ≤ e.buf.length
    · obtain ⟨hs, hl⟩ := ih
        { e with buf := e.buf.drop PlaintextChunkLength, chunkNum := e.chunkNum + 1 }
        (by simp only [List.length_drop, PlaintextChunkLength] at *; omega)
      rw [encWriteLoop, dif_pos h]
      simp only [List.length_drop] at hs hl
      have hq : e.buf.length / PlaintextChunkLength
          = (e.buf.length - PlaintextChunkLength) / PlaintextChunkLength + 1 := by
        simp only [PlaintextChunkLength] at *; omega
      constructor
      · rw [hs]
        obtain ⟨k, sk, non, buf, n⟩ := e
        simp only [List.drop_drop, AttachmentEncoder.mk.injEq, and_true, true_and]
        constructor
        · congr 1
          simp only [PlaintextChunkLength] at *; omega
        · simp only [PlaintextChunkLength] at *; omega
      · simp only [List.length_append, hl, sealPacket_length, List.length_take]
        have htk : min PlaintextChunkLength e.buf.length = PlaintextChunkLength := by
          omega
        rw [htk, hq]
        simp only [PacketLength, PlaintextChunkLength, SignatureSize,
          SecretboxOverhead, Bin32Overhead] at *
        ring
    · have hq : e.buf.length / PlaintextChunkLength = 0 :=
        Nat.div_eq_of_lt (Nat.not_le.mp h)
      rw [encWriteLoop, dif_neg h]
      simp [hq]

/-- After `Write`'s loop the buffer holds strictly fewer than
`PlaintextChunkLength` bytes. -/
lemma encWriteLoop_buf_lt (e : AttachmentEncoder) :
    (encWriteLoop e).2.buf.length < PlaintextChunkLength := by
  obtain ⟨hs, -⟩ := encWriteLoop_spec e.buf.length e le_rfl
  rw [hs]
  simp only [List.length_drop, PlaintextChunkLength]
  omega

lemma encWriteLoop_buf_mod (e : AttachmentEncoder) :
    (encWriteLoop e).2.buf.length = e.buf.length % PlaintextChunkLength := by
  obtain ⟨hs, -⟩ := encWriteLoop_spec e.buf.length e le_rfl
  rw [hs]
  simp only [List.length_drop, PlaintextChunkLength]
  omega

-- ===========================================================================
-- Decoder loop characterization
-- ===========================================================================

/-- When `Write`'s loop stops with an error, the plaintext opened so far in
the call has been discarded and the error is recorded in the sticky slot. -/
lemma decWriteLoop_error_spec :
    ∀ (N : Nat) (d : AttachmentDecoder), d.buf.length ≤ N →
      ∀ e, (decWriteLoop d).1.2 = some e →
        (decWriteLoop d).1.1 = [] ∧ (decWriteLoop d).2.err = some e := by
  intro N
  induction N with
  | zero =>
    intro d hd e
    have hlt : ¬ PacketLength ≤ d.buf.length := by
      simp only [PacketLength, PlaintextChunkLength, SignatureSize,
        SecretboxOverhead, Bin32Overhead]
      omega
    rw [decWriteLoop, dif_neg hlt]
    simp
  | succ N ih =>
    intro d hd e
    by_cases h : PacketLength ≤ d.buf.length
    · rw [decWriteLoop, dif_pos h]
      cases hop : openPacket (d.buf.take PacketLength) d.chunkNum d.encKey
          d.verifyKey d.nonce with
      | error e0 =>
        simp only [hop]
        intro he
        cases he
        simp
      | ok pt =>
        simp only [hop]
        cases herr : (decWriteLoop { d with
            buf := d.buf.drop PacketLength
            chunkNum := d.chunkNum + 1 }).1.2 with
        | none => simp [herr]
        | some e1 =>
          simp only [herr]
          intro he
          cases he
          have := ih { d with
              buf := d.buf.drop PacketLength
              chunkNum := d.chunkNum + 1 }
            (by
              simp only [List.length_drop, PacketLength, PlaintextChunkLength,
                SignatureSize, SecretboxOverhead, Bin32Overhead] at *
              omega)
            e herr
          simp [this.2]
    · rw [decWriteLoop, dif_neg h]
      simp

/-- When `Write`'s loop completes without error: the keys, nonce and sticky
slot are untouched and the buffer holds strictly fewer than `PacketLength`
bytes. -/
lemma decWriteLoop_ok_spec :
    ∀ (N : Nat) (d : AttachmentDecoder), d.buf.length ≤ N →
      (decWriteLoop d).1.2 = none →
        (decWriteLoop d).2.encKey = d.encKey ∧
        (decWriteLoop d).2.verifyKey = d.verifyKey ∧
        (decWriteLoop d).2.nonce = d.nonce ∧
        (decWriteLoop d).2.err = d.err ∧
        (decWriteLoop d).2.buf.length < PacketLength := by
  intro N
  induction N with
  | zero =>
    intro d hd
    have hlt : ¬ PacketLength ≤ d.buf.length := by
      simp only [PacketLength, PlaintextChunkLength, SignatureSize,
        SecretboxOverhead, Bin32Overhead]
      omega
    rw [decWriteLoop, dif_neg hlt]
    intro
    refine ⟨rfl, rfl, rfl, rfl, ?_⟩
    show d.buf.length < PacketLength
    simp only [PacketLength, PlaintextChunkLength, SignatureSize,
      SecretboxOverhead, Bin32Overhead] at *
    omega
  | succ N ih =>
    intro d hd
    by_cases h : PacketLength ≤ d.buf.length
    · rw [decWriteLoop, dif_pos h]
      cases hop : openPacket (d.buf.take PacketLength) d.chunkNum d.encKey
          d.verifyKey d.nonce with
      | error e0 => simp [hop]
      | ok pt =>
        simp only [hop]
        cases herr : (decWriteLoop { d with
            buf := d.buf.drop PacketLength
            chunkNum := d.chunkNum + 1 }).1.2 with
        | some e1 => simp [herr]
        | none =>
          simp only [herr]
          intro
          have := ih { d with
              buf := d.buf.drop PacketLength
              chunkNum := d.chunkNum + 1 }
            (by
              simp only [List.length_drop, PacketLength, PlaintextChunkLength,
                SignatureSize, SecretboxOverhead, Bin32Overhead] at *
              omega)
            herr
          simpa using this
    · rw [decWriteLoop, dif_neg h]
      intro
      refine ⟨rfl, rfl, rfl, rfl, ?_⟩
      show d.buf.length < PacketLength
      omega

-- ===========================================================================
-- Round trip: decoding a sealed stream
-- ===========================================================================

/-- Decoding the full packets and terminal packet produced by the encoder
loop recovers the buffered plaintext: the decoder's loop opens exactly the
full packets (leaving the terminal packet buffered), and its output is the
sealed prefix of the plaintext. -/
lemma decode_sealStream (k sk non : List Nat) :
    ∀ (N : Nat) (buf : List Nat), buf.length ≤ N → ∀ (n : Nat),
    decWriteLoop
      ⟨k, ed25519PublicKey sk, non,
        (encWriteLoop ⟨k, sk, non, buf, n⟩).1
          ++ sealPacket (encWriteLoop ⟨k, sk, non, buf, n⟩).2.buf
              (encWriteLoop ⟨k, sk, non, buf, n⟩).2.chunkNum k sk non,
        n, none⟩
    = ((buf.take (buf.length / PlaintextChunkLength * PlaintextChunkLength), none),
       ⟨k, ed25519PublicKey sk, non,
         sealPacket (encWriteLoop ⟨k, sk, non, buf, n⟩).2.buf
           (encWriteLoop ⟨k, sk, non, buf, n⟩).2.chunkNum k sk non,
         (encWriteLoop ⟨k, sk, non, buf, n⟩).2.chunkNum, none⟩) := by
  intro N
  induction N with
  | zero =>
    intro buf hbuf n
    have h0 : buf.length = 0 := by omega
    have hlt : ¬ PlaintextChunkLength ≤
        (⟨k, sk, non, buf, n⟩ : AttachmentEncoder).buf.length := by
      show ¬ PlaintextChunkLength ≤ buf.length
      simp only [PlaintextChunkLength]; omega
    rw [encWriteLoop, dif_neg hlt]
    dsimp only
    have hT : ¬ PacketLength ≤
        ((⟨k, ed25519PublicKey sk, non, [] ++ sealPacket buf n k sk non, n,
          none⟩ : AttachmentDecoder)).buf.length := by
      show ¬ PacketLength ≤ ([] ++ sealPacket buf n k sk non).length
      simp only [List.nil_append, sealPacket_length, PacketLength,
        PlaintextChunkLength, SignatureSize, SecretboxOverhead, Bin32Overhead]
      omega
    rw [decWriteLoop, dif_neg hT]
    have hq : buf.length / PlaintextChunkLength = 0 := by
      simp only [PlaintextChunkLength]; omega
    simp [hq]
  | succ N ih =>
    intro buf hbuf n
    by_cases h : PlaintextChunkLength ≤ buf.length
    · have hh : PlaintextChunkLength ≤
          (⟨k, sk, non, buf, n⟩ : AttachmentEncoder).buf.length := h
      rw [encWriteLoop, dif_pos hh]
      dsimp only
      have htklen : (buf.take PlaintextChunkLength).length = PlaintextChunkLength := by
        simp only [List.length_take]
        omega
      have hP0 : (sealPacket (buf.take PlaintextChunkLength) n k sk non).length
          = PacketLength := by
        rw [sealPacket_length, htklen]
        simp only [PacketLength, SignatureSize, SecretboxOverhead, Bin32Overhead]
      set r := encWriteLoop ⟨k, sk, non, buf.drop PlaintextChunkLength, n + 1⟩ with hr
      set P0 := sealPacket (buf.take PlaintextChunkLength) n k sk non with hP0def
      set T := sealPacket r.2.buf r.2.chunkNum k sk non with hT
      have hstream : (P0 ++ r.1) ++ T = P0 ++ (r.1 ++ T) := by
        rw [List.append_assoc]
      have hlen : PacketLength ≤
          ((⟨k, ed25519PublicKey sk, non, P0 ++ r.1 ++ T, n,
            none⟩ : AttachmentDecoder)).buf.length := by
        show PacketLength ≤ (P0 ++ r.1 ++ T).length
        simp only [List.length_append, hP0]
        omega
      rw [decWriteLoop, dif_pos hlen]
      dsimp only
      have htake : (P0 ++ r.1 ++ T).take PacketLength = P0 := by
        rw [hstream, List.take_append_of_le_length hP0.ge,
          List.take_of_length_le hP0.le]
      have hdrop : (P0 ++ r.1 ++ T).drop PacketLength = r.1 ++ T := by
        rw [hstream, List.drop_append_of_le_length hP0.ge,
          List.drop_of_length_le hP0.le, List.nil_append]
      have hopen : openPacket P0 n k (ed25519PublicKey sk) non
          = .ok (buf.take PlaintextChunkLength) := by
        rw [hP0def]
        apply openPacket_sealPacket
        rw [htklen]
        simp only [PlaintextChunkLength]
        omega
      rw [htake, hopen]
      dsimp only
      rw [hdrop]
      have ihlen : (buf.drop PlaintextChunkLength).length ≤ N := by
        simp only [List.length_drop, PlaintextChunkLength] at *
        omega
      have ihres := ih (buf.drop PlaintextChunkLength) ihlen (n + 1)
      rw [← hr] at ihres
      rw [ihres]
      dsimp only
      have hq : buf.length / PlaintextChunkLength
          = (buf.drop PlaintextChunkLength).length / PlaintextChunkLength + 1 := by
        simp only [List.length_drop, PlaintextChunkLength] at *
        omega
      have htkadd : buf.take (buf.length / PlaintextChunkLength * PlaintextChunkLength)
          = buf.take PlaintextChunkLength
            ++ (buf.drop PlaintextChunkLength).take
                ((buf.drop PlaintextChunkLength).length / PlaintextChunkLength
                  * PlaintextChunkLength) := by
        rw [hq, Nat.succ_mul, Nat.add_comm, List.take_add]
      rw [htkadd]
    · have hh : ¬ PlaintextChunkLength ≤
          (⟨k, sk, non, buf, n⟩ : AttachmentEncoder).buf.length := h
      rw [encWriteLoop, dif_neg hh]
      dsimp only
      have hT : ¬ PacketLength ≤
          ((⟨k, ed25519PublicKey sk, non, [] ++ sealPacket buf n k sk non, n,
            none⟩ : AttachmentDecoder)).buf.length := by
        show ¬ PacketLength ≤ ([] ++ sealPacket buf n k sk non).length
        simp only [List.nil_append, sealPacket_length, PacketLength,
          PlaintextChunkLength, SignatureSize, SecretboxOverhead, Bin32Overhead] at *
        omega
      rw [decWriteLoop, dif_neg hT]
      have hq : buf.length / PlaintextChunkLength = 0 :=
        Nat.div_eq_of_lt (Nat.not_le.mp h)
      simp [hq]

lemma encWriteLoop_encKey (e : AttachmentEncoder) :
    (encWriteLoop e).2.encKey = e.encKey := by
  rw [(encWriteLoop_spec e.buf.length e le_rfl).1]

lemma encWriteLoop_signKey (e : AttachmentEncoder) :
    (encWriteLoop e).2.signKey = e.signKey := by
  rw [(encWriteLoop_spec e.buf.length e le_rfl).1]

lemma encWriteLoop_nonce (e : AttachmentEncoder) :
    (encWriteLoop e).2.nonce = e.nonce := by
  rw [(encWriteLoop_spec e.buf.length e le_rfl).1]

lemma encWriteLoop_buf (e : AttachmentEncoder) :
    (encWriteLoop e).2.buf
      = e.buf.drop (PlaintextChunkLength * (e.buf.length / PlaintextChunkLength)) := by
  rw [(encWriteLoop_spec e.buf.length e le_rfl).1]

lemma encWriteLoop_chunkNum (e : AttachmentEncoder) :
    (encWriteLoop e).2.chunkNum
      = e.chunkNum + e.buf.length / PlaintextChunkLength := by
  rw [(encWriteLoop_spec e.buf.length e le_rfl).1]

/-- `Finish` on a buffer shorter than a full chunk: no panic, and the terminal
packet seals the whole remaining buffer. -/
lemma Finish_of_lt (e : AttachmentEncoder) (h : e.buf.length < PlaintextChunkLength) :
    e.Finish = some (sealPacket e.buf e.chunkNum e.encKey e.signKey e.nonce,
      { e with buf := [], chunkNum := e.chunkNum + 1 }) := by
  rw [AttachmentEncoder.Finish, if_neg (Nat.not_le.mpr h),
    sealOnePacket_of_le e e.buf.length le_rfl, List.take_length, List.drop_length]

/-- What `SealWholeAttachment` produces: the loop's packets followed by the
terminal packet of the residual buffer. -/
lemma sealWhole_eq (pt k sk non : List Nat) :
    SealWholeAttachment pt k sk non
      = some ((encWriteLoop ⟨k, sk, non, pt, 0⟩).1
          ++ sealPacket (encWriteLoop ⟨k, sk, non, pt, 0⟩).2.buf
               (encWriteLoop ⟨k, sk, non, pt, 0⟩).2.chunkNum k sk non) := by
  have hfin := Finish_of_lt (encWriteLoop ⟨k, sk, non, pt, 0⟩).2
    (encWriteLoop_buf_lt _)
  rw [encWriteLoop_encKey, encWriteLoop_signKey, encWriteLoop_nonce] at hfin
  simp only [SealWholeAttachment, AttachmentEncoder.Write, NewAttachmentEncoder]
  simp only [List.nil_append]
  rw [hfin]

/-- Opening what `SealWholeAttachment` produced yields the plaintext. -/
lemma openWhole_sealStream (pt k sk non : List Nat) :
    OpenWholeAttachment
      ((encWriteLoop ⟨k, sk, non, pt, 0⟩).1
        ++ sealPacket (encWriteLoop ⟨k, sk, non, pt, 0⟩).2.buf
             (encWriteLoop ⟨k, sk, non, pt, 0⟩).2.chunkNum k sk non)
      k (ed25519PublicKey sk) non = some (.ok pt) := by
  have hdec := decode_sealStream k sk non pt.length pt le_rfl 0
  have hblt := encWriteLoop_buf_lt ⟨k, sk, non, pt, 0⟩
  simp only [OpenWholeAttachment, AttachmentDecoder.Write, NewAttachmentDecoder]
  simp only [List.nil_append]
  rw [hdec]
  dsimp only
  have hTlen : (sealPacket (encWriteLoop ⟨k, sk, non, pt, 0⟩).2.buf
      (encWriteLoop ⟨k, sk, non, pt, 0⟩).2.chunkNum k sk non).length
      < PacketLength := by
    rw [sealPacket_length]
    simp only [PacketLength, SignatureSize, SecretboxOverhead, Bin32Overhead]
    omega
  have hopenT : openPacket
      (sealPacket (encWriteLoop ⟨k, sk, non, pt, 0⟩).2.buf
        (encWriteLoop ⟨k, sk, non, pt, 0⟩).2.chunkNum k sk non)
      (encWriteLoop ⟨k, sk, non, pt, 0⟩).2.chunkNum k (ed25519PublicKey sk) non
      = .ok (encWriteLoop ⟨k, sk, non, pt, 0⟩).2.buf := by
    apply openPacket_sealPacket
    have := hblt
    simp only [PlaintextChunkLength] at this
    omega
  rw [AttachmentDecoder.Finish]
  dsimp only
  rw [if_neg (Nat.not_le.mpr hTlen), hopenT]
  dsimp only
  have : pt.take (pt.length / PlaintextChunkLength * PlaintextChunkLength)
      ++ (encWriteLoop ⟨k, sk, non, pt, 0⟩).2.buf = pt := by
    rw [encWriteLoop_buf]
    dsimp only
    rw [Nat.mul_comm, List.take_append_drop]
  rw [this]

-- ===========================================================================
-- Claim C1: whole-attachment round trip
-- ===========================================================================

/-- C1: For every plaintext byte string, every 32-byte symmetric key, every
Ed25519 signing keypair, and every 16-byte stream nonce, opening the result
of sealing returns exactly the original plaintext and no error (the `Finish`
panics are unreachable, so both wrappers return `some`). -/
theorem C1_round_trip (pt encKey signKey nonce : List Nat)
    (hk : encKey.length = 32) (hsk : signKey.length = 64)
    (hn : nonce.length = 16) :
    ∃ sealed, SealWholeAttachment pt encKey signKey nonce = some sealed ∧
      OpenWholeAttachment sealed encKey (ed25519PublicKey signKey) nonce
        = some (.ok pt) :=
  ⟨_, sealWhole_eq pt encKey signKey nonce,
    openWhole_sealStream pt encKey signKey nonce⟩

/-- C1 witness: the round trip at a concrete plaintext and all-zero keys. -/
theorem C1_witness :
    ∃ sealed, SealWholeAttachment [1, 2, 3] (List.replicate 32 0)
        (List.replicate 64 0) (List.replicate 16 0) = some sealed ∧
      OpenWholeAttachment sealed (List.replicate 32 0)
        (ed25519PublicKey (List.replicate 64 0)) (List.replicate 16 0)
        = some (.ok [1, 2, 3]) :=
  C1_round_trip [1, 2, 3] (List.replicate 32 0) (List.replicate 64 0)
    (List.replicate 16 0) (by simp) (by simp) (by simp)

-- ===========================================================================
-- Claim C2: signature input layout
-- ===========================================================================

/-- C2 counterexample: the context string "keybase chat attachment" has 23
ASCII bytes (not 24), and the signature input is 144 bytes long, not 133. -/
theorem C2_counterexample :
    "keybase chat attachment".toList.length = 23 ∧
    (makeSignatureInput [] (List.replicate 32 0)
        (makeChunkNonce (List.replicate 16 0) 0)).length = 144 ∧
    (144 : Nat) ≠ 133 := by
  refine ⟨by decide, ?_, by decide⟩
  simp [makeSignatureInput, makeChunkNonce]

/-- C2 (amended: the signed byte string is the 144-byte concatenation of the
23 ASCII bytes "keybase chat attachment", one 0x00 byte, the 32-byte
symmetric key, the 24-byte chunk nonce — 16-byte stream nonce followed by the
big-endian u64 chunk index — and the 64-byte SHA-512 hash of the chunk). -/
theorem C2_signature_input (pt encKey nonce : List Nat) (n : Nat)
    (hk : encKey.length = 32) (hn : nonce.length = 16) :
    makeSignatureInput pt encKey (makeChunkNonce nonce n)
      = ("keybase chat attachment".toList.map Char.toNat ++ [0]) ++ encKey
        ++ (nonce ++ u64beBytes n) ++ sha512 pt ∧
    (nonce ++ u64beBytes n).length = 24 ∧
    (sha512 pt).length = 64 ∧
    (makeSignatureInput pt encKey (makeChunkNonce nonce n)).length = 144 := by
  refine ⟨?_, ?_, sha512_length pt, ?_⟩
  · simp only [makeSignatureInput, makeChunkNonce]
    rw [show signatureDomainBytes
      = "keybase chat attachment".toList.map Char.toNat ++ [0] from by decide]
  · simp [hn]
  · simp [makeSignatureInput, makeChunkNonce, hk, hn]

/-- C2 witness: the amended layout at concrete inputs. -/
theorem C2_witness :
    makeSignatureInput [7] (List.replicate 32 0)
        (makeChunkNonce (List.replicate 16 0) 1)
      = ("keybase chat attachment".toList.map Char.toNat ++ [0])
        ++ List.replicate 32 0
        ++ (List.replicate 16 0 ++ u64beBytes 1) ++ sha512 [7] ∧
    (List.replicate 16 0 ++ u64beBytes 1).length = 24 ∧
    (sha512 [7]).length = 64 ∧
    (makeSignatureInput [7] (List.replicate 32 0)
        (makeChunkNonce (List.replicate 16 0) 1)).length = 144 :=
  C2_signature_input [7] (List.replicate 32 0) (List.replicate 16 0) 1
    (by simp) (by simp)

-- ===========================================================================
-- Claim C3: sealed size determinism
-- ===========================================================================

/-- C3: the sealed stream's length equals `GetSealedSize` of the plaintext
length; `GetSealedSize L = (L / 2^20) * 1048661 + ((L mod 2^20) + 64+16+5)`;
and a plaintext whose length is an exact multiple of 2^20 ends in an 85-byte
empty terminal packet. -/
theorem C3_sealed_size (pt k sk non : List Nat) :
    (∃ s, SealWholeAttachment pt k sk non = some s ∧
      s.length = GetSealedSize pt.length) ∧
    (∀ L, GetSealedSize L
      = L / 2 ^ 20 * 1048661 + (L % 2 ^ 20 + 64 + 16 + 5)) ∧
    (pt.length % 2 ^ 20 = 0 →
      ∃ front, SealWholeAttachment pt k sk non
          = some (front ++ sealPacket [] (pt.length / 2 ^ 20) k sk non) ∧
        (sealPacket [] (pt.length / 2 ^ 20) k sk non).length = 85) := by
  have h20 : (2 : Nat) ^ 20 = PlaintextChunkLength := by
    simp only [PlaintextChunkLength]; norm_num
  refine ⟨?_, ?_, ?_⟩
  · refine ⟨_, sealWhole_eq pt k sk non, ?_⟩
    have hlen := (encWriteLoop_spec pt.length ⟨k, sk, non, pt, 0⟩ le_rfl).2
    have hmod := encWriteLoop_buf_mod ⟨k, sk, non, pt, 0⟩
    simp only [List.length_append, hlen, sealPacket_length, hmod]
    simp only [GetSealedSize, getPacketLen, PacketLength, PlaintextChunkLength,
      SignatureSize, SecretboxOverhead, Bin32Overhead]
  · intro L
    simp only [GetSealedSize, getPacketLen, PlaintextChunkLength,
      SignatureSize, SecretboxOverhead, Bin32Overhead]
    have : (2 : Nat) ^ 20 = 1048576 := by norm_num
    rw [this]
  · intro hmul
    rw [h20] at hmul
    have hbuf := encWriteLoop_buf ⟨k, sk, non, pt, 0⟩
    have hnum := encWriteLoop_chunkNum ⟨k, sk, non, pt, 0⟩
    dsimp only at hbuf hnum
    have hbufnil : (encWriteLoop ⟨k, sk, non, pt, 0⟩).2.buf = [] := by
      rw [hbuf]
      apply List.drop_of_length_le
      simp only [PlaintextChunkLength] at *
      omega
    refine ⟨(encWriteLoop ⟨k, sk, non, pt, 0⟩).1, ?_, ?_⟩
    · rw [sealWhole_eq pt k sk non, hbufnil, hnum, h20]
      simp
    · rw [sealPacket_length]
      simp

/-- C3 witness: the empty plaintext (an exact multiple of 2^20) at concrete
keys, exercising the terminal-packet conjunct. -/
theorem C3_witness :
    ∃ front, SealWholeAttachment [] (List.replicate 32 0) (List.replicate 64 0)
        (List.replicate 16 0)
        = some (front ++ sealPacket [] (([] : List Nat).length / 2 ^ 20)
            (List.replicate 32 0) (List.replicate 64 0) (List.replicate 16 0)) ∧
      (sealPacket [] (([] : List Nat).length / 2 ^ 20) (List.replicate 32 0)
        (List.replicate 64 0) (List.replicate 16 0)).length = 85 :=
  (C3_sealed_size [] (List.replicate 32 0) (List.replicate 64 0)
    (List.replicate 16 0)).2.2 (by simp)

-- ===========================================================================
-- Claim C6: the frame length check
-- ===========================================================================

/-- A packet of length exactly 2^32 whose length field is 2^32 - 5: the exact
`L + 5` equals the packet length, yet the code rejects it, because the Go
expression `uint64(length+5)` adds in `uint32` and wraps to 0. -/
def c6badPacket : List Nat :=
  0xc6 :: 0xff :: 0xff :: 0xff :: 0xfb :: List.replicate (2 ^ 32 - 5) 0

/-- C6 counterexample: `c6badPacket` is at least 5 bytes, starts with 0xC6,
and satisfies `L + 5 = len(packet)` in exact arithmetic, yet opening it
returns `WrongMessagePackLength` — refuting the claim's "exact integer
arithmetic, no wraparound" reading of the check. -/
theorem C6_counterexample :
    (5 ≤ c6badPacket.length ∧ c6badPacket.getD 0 0 = 0xc6 ∧
      u32be ((c6badPacket.drop 1).take 4) + 5 = c6badPacket.length) ∧
    unpackCiphertext c6badPacket = .error .WrongMessagePackLength ∧
    openPacket c6badPacket 0 [] [] [] = .error .WrongMessagePackLength := by
  have hlen : c6badPacket.length = 2 ^ 32 := by
    rw [c6badPacket, List.length_cons, List.length_cons, List.length_cons,
      List.length_cons, List.length_cons, List.length_replicate]
    norm_num
  have hfour : (c6badPacket.drop 1).take 4 = [0xff, 0xff, 0xff, 0xfb] := rfl
  have hL : u32be ((c6badPacket.drop 1).take 4) = 4294967291 := by
    rw [hfour]; decide
  have htag : c6badPacket.getD 0 0 = 0xc6 := rfl
  have hunpack : unpackCiphertext c6badPacket = .error .WrongMessagePackLength := by
    rw [unpackCiphertext]
    rw [if_neg (by rw [hlen]; simp only [Bin32Overhead]; norm_num)]
    rw [if_neg (by rw [htag]; simp [Bin32Tag])]
    rw [if_pos (by rw [hL, hlen]; norm_num)]
  refine ⟨⟨by rw [hlen]; norm_num, htag, by rw [hL, hlen]; norm_num⟩, hunpack, ?_⟩
  rw [openPacket, hunpack]

/-- C6 (amended: the check is modulo 2^32 — for every at-least-5-byte packet
starting with 0xC6, opening returns `WrongMessagePackLength` iff
`(L + 5) mod 2^32 ≠ len(packet)`, `L` being the big-endian u32 in bytes
1..5; the exact-arithmetic reading holds whenever the packet is shorter than
2^32 bytes). -/
theorem C6_length_check (packet : List Nat) (n : Nat)
    (encKey verifyKey nonce : List Nat)
    (h5 : 5 ≤ packet.length) (htag : packet.getD 0 0 = 0xc6)
    (hbytes : ∀ b ∈ packet, b < 256) :
    (openPacket packet n encKey verifyKey nonce
        = .error .WrongMessagePackLength)
      ↔ (u32be ((packet.drop 1).take 4) + 5) % 2 ^ 32 ≠ packet.length := by
  have h5' : ¬ packet.length < Bin32Overhead := by
    simp only [Bin32Overhead]; omega
  have htag' : ¬ packet.getD 0 0 ≠ Bin32Tag := by
    simpa [Bin32Tag] using htag
  rw [openPacket, unpackCiphertext, if_neg h5', if_neg htag']
  by_cases hcond : (u32be ((packet.drop 1).take 4) + 5) % 2 ^ 32 ≠ packet.length
  · rw [if_pos hcond]
    exact iff_of_true rfl hcond
  · rw [if_neg hcond]
    dsimp only
    simp only [hcond, iff_false]
    cases hsb : secretboxOpen (packet.drop Bin32Overhead)
        (makeChunkNonce nonce n) encKey with
    | none => simp
    | some signedChunk =>
      dsimp only
      by_cases hshort : signedChunk.length < SignatureSize
      · rw [if_pos hshort]; simp
      · rw [if_neg hshort]
        by_cases hver : ed25519Verify verifyKey
            (makeSignatureInput (signedChunk.drop SignatureSize) encKey
              (makeChunkNonce nonce n)) (signedChunk.take SignatureSize) = true
        · rw [if_pos hver]; simp
        · rw [if_neg hver]; simp

/-- C6 witness: the amended check at a concrete short packet whose length
field does not match. -/
theorem C6_witness :
    (openPacket [0xc6, 0, 0, 0, 1] 0 [] [] []
        = .error .WrongMessagePackLength)
      ↔ (u32be (([0xc6, 0, 0, 0, 1].drop 1).take 4) + 5) % 2 ^ 32
          ≠ ([0xc6, 0, 0, 0, 1] : List Nat).length :=
  C6_length_check [0xc6, 0, 0, 0, 1] 0 [] [] [] (by decide) (by decide)
    (by decide)

-- ===========================================================================
-- Claim C8: empty plaintext end-to-end
-- ===========================================================================

/-- C8: sealing the empty plaintext under all-zero keys and nonce produces
exactly one 85-byte packet starting `0xC6 0x00 0x00 0x00 0x50`, and opening
it returns the empty byte string. -/
theorem C8_empty_plaintext :
    SealWholeAttachment [] (List.replicate 32 0) (List.replicate 64 0)
        (List.replicate 16 0)
      = some (sealPacket [] 0 (List.replicate 32 0) (List.replicate 64 0)
          (List.replicate 16 0)) ∧
    (sealPacket [] 0 (List.replicate 32 0) (List.replicate 64 0)
        (List.replicate 16 0)).length = 85 ∧
    (sealPacket [] 0 (List.replicate 32 0) (List.replicate 64 0)
        (List.replicate 16 0)).take 5 = [0xc6, 0x00, 0x00, 0x00, 0x50] ∧
    OpenWholeAttachment
      (sealPacket [] 0 (List.replicate 32 0) (List.replicate 64 0)
        (List.replicate 16 0))
      (List.replicate 32 0) (ed25519PublicKey (List.replicate 64 0))
      (List.replicate 16 0) = some (.ok []) := by
  have hE : encWriteLoop ⟨List.replicate 32 0, List.replicate 64 0,
      List.replicate 16 0, [], 0⟩
      = ([], ⟨List.replicate 32 0, List.replicate 64 0,
          List.replicate 16 0, [], 0⟩) := by
    rw [encWriteLoop, dif_neg (by decide)]
  refine ⟨?_, by simp [sealPacket_length], by decide, ?_⟩
  · have := sealWhole_eq [] (List.replicate 32 0) (List.replicate 64 0)
      (List.replicate 16 0)
    rw [hE] at this
    simpa using this
  · have := openWhole_sealStream [] (List.replicate 32 0) (List.replicate 64 0)
      (List.replicate 16 0)
    rw [hE] at this
    simpa using this

-- ===========================================================================
-- Claim C9: openPacket is total and in-bounds
-- ===========================================================================

/-- A bounds-checked slice `xs[i:j]`: `none` exactly when Go's slice
expression would panic. -/
def slice? (xs : List Nat) (i j : Nat) : Option (List Nat) :=
  if i ≤ j ∧ j ≤ xs.length then some ((xs.take j).drop i) else none

/-- `unpackCiphertext` with every byte access and slice bounds-checked
(`none` = out-of-bounds access). -/
def unpackCiphertextChecked (packet : List Nat) :
    Option (Except AttachmentCryptoErrorType (List Nat)) :=
  if packet.length < Bin32Overhead then some (.error .ShortMessagePackObject)
  else
    match packet.get? 0 with
    | none => none
    | some b0 =>
      if b0 ≠ Bin32Tag then some (.error .WrongMessagePackFormat)
      else
        match slice? packet 1 5 with
        | none => none
        | some lenBytes =>
          if (u32be lenBytes + 5) % 2 ^ 32 ≠ packet.length then
            some (.error .WrongMessagePackLength)
          else
            match slice? packet Bin32Overhead packet.length with
            | none => none
            | some c => some (.ok c)

/-- `openPacket` with every slice bounds-checked. -/
def openPacketChecked (packet : List Nat) (chunkNum : Nat)
    (encKey verifyKey attachmentNonce : List Nat) :
    Option (Except AttachmentCryptoErrorType (List Nat)) :=
  match unpackCiphertextChecked packet with
  | none => none
  | some (.error e) => some (.error e)
  | some (.ok ciphertext) =>
    let chunkNonce := makeChunkNonce attachmentNonce chunkNum
    match secretboxOpen ciphertext chunkNonce encKey with
    | none => some (.error .BadSecretbox)
    | some signedChunk =>
      if signedChunk.length < SignatureSize then some (.error .ShortSignature)
      else
        match slice? signedChunk 0 SignatureSize,
            slice? signedChunk SignatureSize signedChunk.length with
        | some signature, some plaintext =>
          if ed25519Verify verifyKey
              (makeSignatureInput plaintext encKey chunkNonce) signature
          then some (.ok plaintext)
          else some (.error .BadSignature)
        | _, _ => none

lemma unpackCiphertextChecked_eq (packet : List Nat) :
    unpackCiphertextChecked packet = some (unpackCiphertext packet) := by
  rw [unpackCiphertextChecked, unpackCiphertext]
  by_cases h5 : packet.length < Bin32Overhead
  · rw [if_pos h5, if_pos h5]
  · rw [if_neg h5, if_neg h5]
    have hlen5 : 5 ≤ packet.length := by
      simp only [Bin32Overhead] at h5
      omega
    cases packet with
    | nil => simp at hlen5
    | cons b rest =>
      have hget : (b :: rest).get? 0 = some b := rfl
      have hgetD : (b :: rest).getD 0 0 = b := rfl
      rw [hget, hgetD]
      dsimp only
      by_cases htag : b ≠ Bin32Tag
      · rw [if_pos htag, if_pos htag]
      · rw [if_neg htag, if_neg htag]
        have hs15 : slice? (b :: rest) 1 5 = some (((b :: rest).drop 1).take 4) := by
          rw [slice?, if_pos ⟨by omega, hlen5⟩, List.drop_take]
        rw [hs15]
        dsimp only
        by_cases hcond : (u32be (((b :: rest).drop 1).take 4) + 5) % 2 ^ 32
            ≠ (b :: rest).length
        · rw [if_pos hcond, if_pos hcond]
        · rw [if_neg hcond, if_neg hcond]
          have hs5 : slice? (b :: rest) Bin32Overhead (b :: rest).length
              = some ((b :: rest).drop Bin32Overhead) := by
            rw [slice?, if_pos ⟨by simp only [Bin32Overhead]; omega, le_refl _⟩,
              List.take_length]
          rw [hs5]

/-- C9: `openPacket` is total — on every input it returns either a plaintext
or one of the six tagged errors — and never reads out of bounds: the
bounds-checked variant (which returns `none` on any out-of-range access)
agrees with it on all inputs. -/
theorem C9_open_packet_safe (packet : List Nat) (chunkNum : Nat)
    (encKey verifyKey attachmentNonce : List Nat) :
    openPacketChecked packet chunkNum encKey verifyKey attachmentNonce
      = some (openPacket packet chunkNum encKey verifyKey attachmentNonce) := by
  rw [openPacketChecked, openPacket, unpackCiphertextChecked_eq]
  cases hup : unpackCiphertext packet with
  | error e => rfl
  | ok ciphertext =>
    dsimp only
    cases hsb : secretboxOpen ciphertext (makeChunkNonce attachmentNonce chunkNum)
        encKey with
    | none => rfl
    | some signedChunk =>
      dsimp only
      by_cases hshort : signedChunk.length < SignatureSize
      · rw [if_pos hshort, if_pos hshort]
      · rw [if_neg hshort, if_neg hshort]
        have hsig : slice? signedChunk 0 SignatureSize
            = some (signedChunk.take SignatureSize) := by
          rw [slice?, if_pos ⟨Nat.zero_le _, by omega⟩, List.drop_zero]
        have hpt : slice? signedChunk SignatureSize signedChunk.length
            = some (signedChunk.drop SignatureSize) := by
          rw [slice?, if_pos ⟨by omega, le_refl _⟩, List.take_length]
        rw [hsig, hpt]
        dsimp only
        rw [apply_ite some]

-- ===========================================================================
-- Claim C10: Finish is not single-use
-- ===========================================================================

/-- C10: after a successful `Finish` the buffer is empty and the chunk index
has been incremented, so a second `Finish` does not panic and returns another
well-formed 85-byte empty terminal packet sealed at the next chunk index. -/
theorem C10_finish_twice (e : AttachmentEncoder) (p1 : List Nat)
    (e1 : AttachmentEncoder) (h : e.Finish = some (p1, e1)) :
    e1.buf = [] ∧ e1.chunkNum = e.chunkNum + 1 ∧
    (∃ e2, e1.Finish
      = some (sealPacket [] (e.chunkNum + 1) e.encKey e.signKey e.nonce, e2)) ∧
    (sealPacket [] (e.chunkNum + 1) e.encKey e.signKey e.nonce).length = 85 := by
  by_cases hb : PlaintextChunkLength ≤ e.buf.length
  · rw [AttachmentEncoder.Finish, if_pos hb] at h
    exact absurd h (by simp)
  · rw [Finish_of_lt e (Nat.not_le.mp hb)] at h
    have h' := h.symm
    rw [Option.some.injEq, Prod.mk.injEq] at h'
    obtain ⟨hp, he1⟩ := h'
    subst he1
    refine ⟨rfl, rfl, ?_, by simp [sealPacket_length]⟩
    have hfin2 := Finish_of_lt
      ({ e with buf := ([] : List Nat), chunkNum := e.chunkNum + 1 })
      (by simp [PlaintextChunkLength])
    exact ⟨_, hfin2⟩

/-- C10 witness: two consecutive `Finish` calls on a fresh encoder. -/
theorem C10_witness :
    (⟨[], [], [], [], 1⟩ : AttachmentEncoder).buf = [] ∧
    (⟨[], [], [], [], 1⟩ : AttachmentEncoder).chunkNum
      = (NewAttachmentEncoder [] [] []).chunkNum + 1 ∧
    (∃ e2, (⟨[], [], [], [], 1⟩ : AttachmentEncoder).Finish
      = some (sealPacket [] ((NewAttachmentEncoder [] [] []).chunkNum + 1)
          (NewAttachmentEncoder [] [] []).encKey
          (NewAttachmentEncoder [] [] []).signKey
          (NewAttachmentEncoder [] [] []).nonce, e2)) ∧
    (sealPacket [] ((NewAttachmentEncoder [] [] []).chunkNum + 1)
        (NewAttachmentEncoder [] [] []).encKey
        (NewAttachmentEncoder [] [] []).signKey
        (NewAttachmentEncoder [] [] []).nonce).length = 85 :=
  C10_finish_twice (NewAttachmentEncoder [] [] []) (sealPacket [] 0 [] [] [])
    ⟨[], [], [], [], 1⟩ rfl

-- ===========================================================================
-- Streaming equivalence: encoder side
-- ===========================================================================

lemma encWriteLoop_of_lt (e : AttachmentEncoder)
    (h : e.buf.length < PlaintextChunkLength) : encWriteLoop e = ([], e) := by
  rw [encWriteLoop, dif_neg (Nat.not_le.mpr h)]

lemma encWriteLoop_step (e : AttachmentEncoder)
    (h : PlaintextChunkLength ≤ e.buf.length) :
    encWriteLoop e
      = (sealPacket (e.buf.take PlaintextChunkLength) e.chunkNum
            e.encKey e.signKey e.nonce
          ++ (encWriteLoop { e with
                buf := e.buf.drop PlaintextChunkLength
                chunkNum := e.chunkNum + 1 }).1,
         (encWriteLoop { e with
            buf := e.buf.drop PlaintextChunkLength
            chunkNum := e.chunkNum + 1 }).2) := by
  rw [encWriteLoop, dif_pos h]

/-- Appending more input after the loop has drained the buffer produces the
same packets as running the loop on the concatenation. -/
lemma encWriteLoop_append :
    ∀ (N : Nat) (e : AttachmentEncoder), e.buf.length ≤ N → ∀ x : List Nat,
      encWriteLoop { e with buf := e.buf ++ x }
        = ((encWriteLoop e).1
            ++ (encWriteLoop { (encWriteLoop e).2 with
                  buf := (encWriteLoop e).2.buf ++ x }).1,
           (encWriteLoop { (encWriteLoop e).2 with
              buf := (encWriteLoop e).2.buf ++ x }).2) := by
  intro N
  induction N with
  | zero =>
    intro e he x
    have h0 : e.buf.length < PlaintextChunkLength := by
      simp only [PlaintextChunkLength]; omega
    rw [encWriteLoop_of_lt e h0]
    simp
  | succ N ih =>
    intro e he x
    by_cases h : PlaintextChunkLength ≤ e.buf.length
    · have hx : PlaintextChunkLength ≤
          ({ e with buf := e.buf ++ x } : AttachmentEncoder).buf.length := by
        show PlaintextChunkLength ≤ (e.buf ++ x).length
        simp only [List.length_append]
        omega
      rw [encWriteLoop_step _ hx, encWriteLoop_step e h]
      dsimp only
      rw [List.take_append_of_le_length h, List.drop_append_of_le_length h]
      have ihx := ih { e with
          buf := e.buf.drop PlaintextChunkLength
          chunkNum := e.chunkNum + 1 }
        (by simp only [List.length_drop, PlaintextChunkLength] at *; omega) x
      dsimp only at ihx
      rw [ihx]
      simp [List.append_assoc]
    · have h0 : e.buf.length < PlaintextChunkLength := Nat.not_le.mp h
      rw [encWriteLoop_of_lt e h0]
      simp

/-- `Write` composes: writing `a ++ b` equals writing `a`, then `b`, with
the outputs concatenated. -/
lemma AttachmentEncoder.Write_append (e : AttachmentEncoder) (a b : List Nat) :
    e.Write (a ++ b)
      = ((e.Write a).1 ++ ((e.Write a).2.Write b).1, ((e.Write a).2.Write b).2) := by
  have h := encWriteLoop_append
    ({ e with buf := e.buf ++ a } : AttachmentEncoder).buf.length
    { e with buf := e.buf ++ a } le_rfl b
  dsimp only at h
  dsimp only [AttachmentEncoder.Write]
  rw [← List.append_assoc]
  exact h

/-- Feeding a list of plaintext pieces to `Write` in order, concatenating
the outputs (what a streaming caller does). -/
def encWriteAll (e : AttachmentEncoder) (pieces : List (List Nat)) :
    List Nat × AttachmentEncoder :=
  match pieces with
  | [] => ([], e)
  | p :: ps =>
    let r := e.Write p
    let r2 := encWriteAll r.2 ps
    (r.1 ++ r2.1, r2.2)

lemma encWriteAll_eq :
    ∀ (pieces : List (List Nat)) (e : AttachmentEncoder),
      e.buf.length < PlaintextChunkLength →
      encWriteAll e pieces = e.Write pieces.flatten := by
  intro pieces
  induction pieces with
  | nil =>
    intro e he
    rw [encWriteAll]
    have : e.Write [].flatten = ([], e) := by
      show encWriteLoop { e with buf := e.buf ++ ([] : List (List Nat)).flatten }
        = ([], e)
      rw [show e.buf ++ ([] : List (List Nat)).flatten = e.buf by simp]
      exact encWriteLoop_of_lt e he
    rw [this]
  | cons p ps ih =>
    intro e he
    rw [encWriteAll]
    rw [ih (e.Write p).2 (encWriteLoop_buf_lt _), List.flatten_cons,
      AttachmentEncoder.Write_append]

-- ===========================================================================
-- Streaming equivalence: decoder side
-- ===========================================================================

lemma decResult_ext
    {p : (List Nat × Option AttachmentCryptoErrorType) × AttachmentDecoder}
    {A : List Nat} {B : Option AttachmentCryptoErrorType} {C : AttachmentDecoder}
    (h1 : p.1.1 = A) (h2 : p.1.2 = B) (h3 : p.2 = C) : p = ((A, B), C) := by
  rw [← h1, ← h2, ← h3]

lemma decWriteLoop_of_lt (d : AttachmentDecoder) (h : d.buf.length < PacketLength) :
    decWriteLoop d = (([], none), d) := by
  rw [decWriteLoop, dif_neg (Nat.not_le.mpr h)]

lemma decWriteLoop_step (d : AttachmentDecoder) (h : PacketLength ≤ d.buf.length) :
    decWriteLoop d
      = match openPacket (d.buf.take PacketLength) d.chunkNum d.encKey
            d.verifyKey d.nonce with
        | .error e => (([], some e), { d with err := some e })
        | .ok plaintext =>
          match (decWriteLoop { d with buf := d.buf.drop PacketLength, chunkNum := d.chunkNum + 1 }).1.2 with
          | some e => (([], some e),
              (decWriteLoop { d with buf := d.buf.drop PacketLength, chunkNum := d.chunkNum + 1 }).2)
          | none => ((plaintext
                ++ (decWriteLoop { d with buf := d.buf.drop PacketLength, chunkNum := d.chunkNum + 1 }).1.1, none),
              (decWriteLoop { d with buf := d.buf.drop PacketLength, chunkNum := d.chunkNum + 1 }).2) := by
  rw [decWriteLoop, dif_pos h]

/-- Appending more ciphertext when the loop so far succeeded: the combined
run opens the same leading packets and then continues from the residual
buffer; if the continuation errors, the whole call's output is discarded. -/
lemma decWriteLoop_append :
    ∀ (N : Nat) (d : AttachmentDecoder), d.buf.length ≤ N →
      ∀ (x o1 : List Nat) (d1 : AttachmentDecoder),
        decWriteLoop d = ((o1, none), d1) →
        decWriteLoop { d with buf := d.buf ++ x }
          = (((decWriteLoop { d1 with buf := d1.buf ++ x }).1.2.elim
                (o1 ++ (decWriteLoop { d1 with buf := d1.buf ++ x }).1.1)
                (fun _ => ([] : List Nat)),
              (decWriteLoop { d1 with buf := d1.buf ++ x }).1.2),
             (decWriteLoop { d1 with buf := d1.buf ++ x }).2) := by
  have hbase : ∀ (d : AttachmentDecoder), d.buf.length < PacketLength →
      ∀ (x o1 : List Nat) (d1 : AttachmentDecoder),
        decWriteLoop d = ((o1, none), d1) →
        decWriteLoop { d with buf := d.buf ++ x }
          = (((decWriteLoop { d1 with buf := d1.buf ++ x }).1.2.elim
                (o1 ++ (decWriteLoop { d1 with buf := d1.buf ++ x }).1.1)
                (fun _ => ([] : List Nat)),
              (decWriteLoop { d1 with buf := d1.buf ++ x }).1.2),
             (decWriteLoop { d1 with buf := d1.buf ++ x }).2) := by
    intro d hlt x o1 d1 hone
    rw [decWriteLoop_of_lt d hlt] at hone
    have ho1 : o1 = [] := by
      have := congrArg (fun p => p.1.1) hone
      simpa using this.symm
    have hd1 : d1 = d := by
      have := congrArg (fun p => p.2) hone
      simpa using this.symm
    subst ho1
    rw [hd1]
    cases hr : (decWriteLoop { d with buf := d.buf ++ x }).1.2 with
    | none =>
      refine decResult_ext ?_ ?_ ?_
      · simp
      · exact hr
      · rfl
    | some e =>
      refine decResult_ext ?_ ?_ ?_
      · exact ((decWriteLoop_error_spec
          ({ d with buf := d.buf ++ x } : AttachmentDecoder).buf.length
          _ le_rfl e hr).1)
      · exact hr
      · rfl
  intro N
  induction N with
  | zero =>
    intro d hd x o1 d1 hone
    exact hbase d (by simp only [PacketLength, PlaintextChunkLength,
      SignatureSize, SecretboxOverhead, Bin32Overhead]; omega) x o1 d1 hone
  | succ N ih =>
    intro d hd x o1 d1 hone
    by_cases h : PacketLength ≤ d.buf.length
    · rw [decWriteLoop_step d h] at hone
      cases hop : openPacket (d.buf.take PacketLength) d.chunkNum d.encKey
          d.verifyKey d.nonce with
      | error e =>
        rw [hop] at hone
        simp at hone
      | ok plaintext =>
        rw [hop] at hone
        dsimp only at hone
        cases herr : (decWriteLoop { d with buf := d.buf.drop PacketLength, chunkNum := d.chunkNum + 1 }).1.2 with
        | some e =>
          rw [herr] at hone
          simp at hone
        | none =>
          rw [herr] at hone
          rw [Prod.mk.injEq, Prod.mk.injEq] at hone
          obtain ⟨⟨ho1, -⟩, hd1⟩ := hone
          have hx : PacketLength ≤
              ({ d with buf := d.buf ++ x } : AttachmentDecoder).buf.length := by
            show PacketLength ≤ (d.buf ++ x).length
            simp only [List.length_append]
            omega
          rw [decWriteLoop_step _ hx]
          dsimp only
          rw [List.take_append_of_le_length h, List.drop_append_of_le_length h,
            hop]
          dsimp only
          have hdin : decWriteLoop { d with buf := d.buf.drop PacketLength, chunkNum := d.chunkNum + 1 }
              = (((decWriteLoop { d with buf := d.buf.drop PacketLength, chunkNum := d.chunkNum + 1 }).1.1, none), d1) :=
            decResult_ext rfl herr hd1
          have ihres := ih { d with buf := d.buf.drop PacketLength, chunkNum := d.chunkNum + 1 }
            (by simp only [List.length_drop, PacketLength, PlaintextChunkLength,
              SignatureSize, SecretboxOverhead, Bin32Overhead] at *; omega)
            x _ d1 hdin
          dsimp only at ihres
          rw [ihres]
          cases hr2 : (decWriteLoop { d1 with buf := d1.buf ++ x }).1.2 with
          | some e => simp [hr2]
          | none =>
            simp only [hr2, Option.elim]
            refine decResult_ext ?_ ?_ ?_ <;>
              first
                | rfl
                | (dsimp only; rw [← ho1, List.append_assoc])
    · exact hbase d (Nat.not_le.mp h) x o1 d1 hone

/-- If the loop succeeds on `buf ++ x`, it also succeeds on `buf` alone. -/
lemma decWriteLoop_prefix_ok :
    ∀ (N : Nat) (d : AttachmentDecoder), d.buf.length ≤ N → ∀ x : List Nat,
      (decWriteLoop { d with buf := d.buf ++ x }).1.2 = none →
      (decWriteLoop d).1.2 = none := by
  intro N
  induction N with
  | zero =>
    intro d hd x hcomb
    rw [decWriteLoop_of_lt d (by simp only [PacketLength, PlaintextChunkLength,
      SignatureSize, SecretboxOverhead, Bin32Overhead]; omega)]
  | succ N ih =>
    intro d hd x hcomb
    by_cases h : PacketLength ≤ d.buf.length
    · have hx : PacketLength ≤
          ({ d with buf := d.buf ++ x } : AttachmentDecoder).buf.length := by
        show PacketLength ≤ (d.buf ++ x).length
        simp only [List.length_append]
        omega
      rw [decWriteLoop_step _ hx] at hcomb
      dsimp only at hcomb
      rw [List.take_append_of_le_length h, List.drop_append_of_le_length h]
        at hcomb
      rw [decWriteLoop_step d h]
      cases hop : openPacket (d.buf.take PacketLength) d.chunkNum d.encKey
          d.verifyKey d.nonce with
      | error e =>
        rw [hop] at hcomb
        simp at hcomb
      | ok plaintext =>
        rw [hop] at hcomb
        dsimp only at hcomb ⊢
        cases hin : (decWriteLoop { d with buf := d.buf.drop PacketLength ++ x, chunkNum := d.chunkNum + 1 }).1.2 with
        | some e =>
          rw [hin] at hcomb
          simp at hcomb
        | none =>
          have hpre := ih
            { d with buf := d.buf.drop PacketLength, chunkNum := d.chunkNum + 1 }
            (by simp only [List.length_drop, PacketLength, PlaintextChunkLength,
              SignatureSize, SecretboxOverhead, Bin32Overhead] at *; omega)
            x hin
          rw [hpre]
    · rw [decWriteLoop_of_lt d (Nat.not_le.mp h)]

lemma Write_of_err_none (d : AttachmentDecoder) (x : List Nat)
    (hd : d.err = none) :
    d.Write x = decWriteLoop { d with buf := d.buf ++ x } := by
  obtain ⟨k, vk, non, buf, n, err⟩ := d
  cases hd
  rfl

lemma Write_err (d : AttachmentDecoder) (x : List Nat)
    (e : AttachmentCryptoErrorType) (hd : d.err = some e) :
    d.Write x = (([], some e), d) := by
  obtain ⟨k, vk, non, buf, n, err⟩ := d
  cases hd
  rfl

lemma Finish_err (d : AttachmentDecoder) (e : AttachmentCryptoErrorType)
    (hd : d.err = some e) :
    d.Finish = some (([], some e), d) := by
  obtain ⟨k, vk, non, buf, n, err⟩ := d
  cases hd
  rfl

lemma Write_ok_spec (d : AttachmentDecoder) (x : List Nat) (hd : d.err = none)
    (h : (d.Write x).1.2 = none) :
    (d.Write x).2.err = none ∧ (d.Write x).2.buf.length < PacketLength := by
  rw [Write_of_err_none d x hd] at h ⊢
  have := decWriteLoop_ok_spec
    ({ d with buf := d.buf ++ x } : AttachmentDecoder).buf.length _ le_rfl h
  refine ⟨?_, this.2.2.2.2⟩
  rw [this.2.2.2.1]
  exact hd

/-- Feeding a list of ciphertext pieces to the decoder's `Write` in order,
concatenating the outputs; stops at the first error (what a streaming caller
does). -/
def decWriteAll (d : AttachmentDecoder) (pieces : List (List Nat)) :
    (List Nat × Option AttachmentCryptoErrorType) × AttachmentDecoder :=
  match pieces with
  | [] => (([], none), d)
  | c :: cs =>
    let r := d.Write c
    match r.1.2 with
    | some e => (([], some e), r.2)
    | none =>
      let r2 := decWriteAll r.2 cs
      ((r.1.1 ++ r2.1.1, r2.1.2), r2.2)

/-- When the one-shot `Write` of the concatenation succeeds, feeding the
pieces one at a time succeeds with the same total output and final state. -/
lemma decWriteAll_eq :
    ∀ (pieces : List (List Nat)) (d : AttachmentDecoder) (o : List Nat)
      (dj : AttachmentDecoder),
      d.err = none → d.buf.length < PacketLength →
      d.Write pieces.flatten = ((o, none), dj) →
      decWriteAll d pieces = ((o, none), dj) := by
  intro pieces
  induction pieces with
  | nil =>
    intro d o dj hderr hdlt hw
    rw [Write_of_err_none d _ hderr] at hw
    rw [show ({ d with buf := d.buf ++ ([] : List (List Nat)).flatten }
        : AttachmentDecoder) = d from by simp] at hw
    rw [decWriteLoop_of_lt d hdlt] at hw
    rw [decWriteAll]
    rw [Prod.mk.injEq, Prod.mk.injEq] at hw
    obtain ⟨⟨ho, -⟩, hdj⟩ := hw
    rw [← ho, ← hdj]
  | cons c cs ih =>
    intro d o dj hderr hdlt hw
    rw [List.flatten_cons] at hw
    have hw2 := hw
    rw [Write_of_err_none d _ hderr, ← List.append_assoc] at hw2
    have hco : (d.Write c).1.2 = none := by
      rw [Write_of_err_none d c hderr]
      apply decWriteLoop_prefix_ok
        ({ d with buf := d.buf ++ c } : AttachmentDecoder).buf.length
        _ le_rfl cs.flatten
      dsimp only
      rw [hw2]
    have hr : d.Write c = (((d.Write c).1.1, none), (d.Write c).2) :=
      decResult_ext rfl hco rfl
    obtain ⟨herr1, hblt1⟩ := Write_ok_spec d c hderr hco
    have happ := decWriteLoop_append
      ({ d with buf := d.buf ++ c } : AttachmentDecoder).buf.length
      _ le_rfl cs.flatten (d.Write c).1.1 (d.Write c).2
      (by rw [← Write_of_err_none d c hderr]; exact hr)
    dsimp only at happ
    rw [happ] at hw2
    rw [Prod.mk.injEq, Prod.mk.injEq] at hw2
    obtain ⟨⟨hout, herr2⟩, hdj⟩ := hw2
    rw [herr2] at hout
    simp only [Option.elim] at hout
    have htail : (d.Write c).2.Write cs.flatten
        = (((decWriteLoop { (d.Write c).2 with
              buf := (d.Write c).2.buf ++ cs.flatten }).1.1, none), dj) := by
      rw [Write_of_err_none _ _ herr1]
      exact decResult_ext rfl herr2 hdj
    have hall := ih (d.Write c).2 _ dj herr1 hblt1 htail
    rw [decWriteAll]
    dsimp only
    rw [hco]
    dsimp only
    rw [hall]
    dsimp only
    rw [← hout]

-- ===========================================================================
-- Claim C4: streaming equivalence
-- ===========================================================================

/-- C4: feeding any partition of the plaintext through the streaming encoder
and appending `Finish`'s output reproduces `SealWholeAttachment` exactly;
feeding any partition of a sealed stream through the streaming decoder and
appending `Finish`'s output reproduces the plaintext that
`OpenWholeAttachment` returns on the whole stream. -/
theorem C4_streaming_equivalence (k sk non : List Nat)
    (ppieces cpieces : List (List Nat)) :
    (∃ fin efin,
      (encWriteAll (NewAttachmentEncoder k sk non) ppieces).2.Finish
        = some (fin, efin) ∧
      SealWholeAttachment ppieces.flatten k sk non
        = some ((encWriteAll (NewAttachmentEncoder k sk non) ppieces).1 ++ fin)) ∧
    (∀ S pt, SealWholeAttachment pt k sk non = some S → cpieces.flatten = S →
      ∃ o dend f dfin,
        decWriteAll (NewAttachmentDecoder k (ed25519PublicKey sk) non) cpieces
          = ((o, none), dend) ∧
        dend.Finish = some ((f, none), dfin) ∧
        o ++ f = pt ∧
        OpenWholeAttachment S k (ed25519PublicKey sk) non
          = some (.ok (o ++ f))) := by
  constructor
  · have hall := encWriteAll_eq ppieces (NewAttachmentEncoder k sk non)
      (by simp [NewAttachmentEncoder, PlaintextChunkLength])
    have hblt := encWriteLoop_buf_lt
      { (NewAttachmentEncoder k sk non) with
        buf := (NewAttachmentEncoder k sk non).buf ++ ppieces.flatten }
    have hfin := Finish_of_lt
      ((NewAttachmentEncoder k sk non).Write ppieces.flatten).2 hblt
    refine ⟨sealPacket (((NewAttachmentEncoder k sk non).Write
          ppieces.flatten).2).buf
        (((NewAttachmentEncoder k sk non).Write ppieces.flatten).2).chunkNum
        (((NewAttachmentEncoder k sk non).Write ppieces.flatten).2).encKey
        (((NewAttachmentEncoder k sk non).Write ppieces.flatten).2).signKey
        (((NewAttachmentEncoder k sk non).Write ppieces.flatten).2).nonce,
      { ((NewAttachmentEncoder k sk non).Write ppieces.flatten).2 with
        buf := ([] : List Nat)
        chunkNum := (((NewAttachmentEncoder k sk non).Write
          ppieces.flatten).2).chunkNum + 1 },
      ?_, ?_⟩
    · rw [hall]
      exact hfin
    · simp only [SealWholeAttachment]
      rw [hall, hfin]
  · intro S pt hS hjoin
    have hS2 : S = (encWriteLoop ⟨k, sk, non, pt, 0⟩).1
        ++ sealPacket (encWriteLoop ⟨k, sk, non, pt, 0⟩).2.buf
            (encWriteLoop ⟨k, sk, non, pt, 0⟩).2.chunkNum k sk non :=
      Option.some.inj (hS.symm.trans (sealWhole_eq pt k sk non))
    have hdec := decode_sealStream k sk non pt.length pt le_rfl 0
    have hW : (NewAttachmentDecoder k (ed25519PublicKey sk) non).Write
        cpieces.flatten
        = ((pt.take (pt.length / PlaintextChunkLength * PlaintextChunkLength),
            none),
           ⟨k, ed25519PublicKey sk, non,
             sealPacket (encWriteLoop ⟨k, sk, non, pt, 0⟩).2.buf
               (encWriteLoop ⟨k, sk, non, pt, 0⟩).2.chunkNum k sk non,
             (encWriteLoop ⟨k, sk, non, pt, 0⟩).2.chunkNum, none⟩) := by
      rw [Write_of_err_none _ _ rfl, hjoin, hS2]
      simpa using hdec
    have hAll := decWriteAll_eq cpieces
      (NewAttachmentDecoder k (ed25519PublicKey sk) non) _ _ rfl
      (by show (0 : Nat) < PacketLength
          simp only [PacketLength, PlaintextChunkLength, SignatureSize,
            SecretboxOverhead, Bin32Overhead]
          omega) hW
    have hblt := encWriteLoop_buf_lt ⟨k, sk, non, pt, 0⟩
    have hTlen : (sealPacket (encWriteLoop ⟨k, sk, non, pt, 0⟩).2.buf
        (encWriteLoop ⟨k, sk, non, pt, 0⟩).2.chunkNum k sk non).length
        < PacketLength := by
      rw [sealPacket_length]
      simp only [PacketLength, SignatureSize, SecretboxOverhead, Bin32Overhead]
      omega
    have hopenT : openPacket
        (sealPacket (encWriteLoop ⟨k, sk, non, pt, 0⟩).2.buf
          (encWriteLoop ⟨k, sk, non, pt, 0⟩).2.chunkNum k sk non)
        (encWriteLoop ⟨k, sk, non, pt, 0⟩).2.chunkNum k (ed25519PublicKey sk) non
        = .ok (encWriteLoop ⟨k, sk, non, pt, 0⟩).2.buf := by
      apply openPacket_sealPacket
      have := hblt
      simp only [PlaintextChunkLength] at this
      omega
    have hFin : (⟨k, ed25519PublicKey sk, non,
        sealPacket (encWriteLoop ⟨k, sk, non, pt, 0⟩).2.buf
          (encWriteLoop ⟨k, sk, non, pt, 0⟩).2.chunkNum k sk non,
        (encWriteLoop ⟨k, sk, non, pt, 0⟩).2.chunkNum, none⟩
          : AttachmentDecoder).Finish
        = some (((encWriteLoop ⟨k, sk, non, pt, 0⟩).2.buf, none),
            ⟨k, ed25519PublicKey sk, non, [],
              (encWriteLoop ⟨k, sk, non, pt, 0⟩).2.chunkNum + 1, none⟩) := by
      rw [AttachmentDecoder.Finish]
      dsimp only
      rw [if_neg (Nat.not_le.mpr hTlen), hopenT]
    have hsum : pt.take (pt.length / PlaintextChunkLength * PlaintextChunkLength)
        ++ (encWriteLoop ⟨k, sk, non, pt, 0⟩).2.buf = pt := by
      rw [encWriteLoop_buf]
      dsimp only
      rw [Nat.mul_comm, List.take_append_drop]
    refine ⟨_, _, _, _, hAll, hFin, hsum, ?_⟩
    rw [hS2, hsum]
    exact openWhole_sealStream pt k sk non

/-- C4 witness: the empty plaintext fed as two empty pieces, and its sealed
stream fed as two pieces split at byte 10. -/
theorem C4_witness :
    (∃ fin efin,
      (encWriteAll (NewAttachmentEncoder [] [] []) [[], []]).2.Finish
        = some (fin, efin) ∧
      SealWholeAttachment ([[], []] : List (List Nat)).flatten [] [] []
        = some ((encWriteAll (NewAttachmentEncoder [] [] []) [[], []]).1 ++ fin)) ∧
    (∃ o dend f dfin,
      decWriteAll (NewAttachmentDecoder [] (ed25519PublicKey []) [])
          [(sealPacket [] 0 [] [] []).take 10, (sealPacket [] 0 [] [] []).drop 10]
        = ((o, none), dend) ∧
      dend.Finish = some ((f, none), dfin) ∧
      o ++ f = ([] : List Nat) ∧
      OpenWholeAttachment (sealPacket [] 0 [] [] []) [] (ed25519PublicKey []) []
        = some (.ok (o ++ f))) := by
  have h := C4_streaming_equivalence [] [] [] [[], []]
    [(sealPacket [] 0 [] [] []).take 10, (sealPacket [] 0 [] [] []).drop 10]
  refine ⟨h.1, ?_⟩
  have hE : encWriteLoop ⟨[], [], [], [], 0⟩ = ([], ⟨[], [], [], [], 0⟩) := by
    rw [encWriteLoop, dif_neg (by decide)]
  have hseal : SealWholeAttachment [] [] [] [] = some (sealPacket [] 0 [] [] []) := by
    have := sealWhole_eq [] [] [] []
    rw [hE] at this
    simpa using this
  have hjoin : ([(sealPacket [] 0 [] [] []).take 10,
      (sealPacket [] 0 [] [] []).drop 10] : List (List Nat)).flatten
      = sealPacket [] 0 [] [] [] := by
    simp [List.take_append_drop]
  exact h.2 (sealPacket [] 0 [] [] []) [] hseal hjoin

-- ===========================================================================
-- Claim C5: sticky decoder errors
-- ===========================================================================

lemma Write_error_latch (d : AttachmentDecoder) (x : List Nat)
    (e : AttachmentCryptoErrorType) (h : (d.Write x).1.2 = some e) :
    (d.Write x).1.1 = [] ∧ (d.Write x).2.err = some e := by
  cases hd : d.err with
  | some e0 =>
    rw [Write_err d x e0 hd] at h ⊢
    dsimp only at h
    have he := Option.some.inj h
    subst he
    exact ⟨rfl, hd⟩
  | none =>
    rw [Write_of_err_none d x hd] at h ⊢
    exact decWriteLoop_error_spec
      ({ d with buf := d.buf ++ x } : AttachmentDecoder).buf.length _ le_rfl e h

lemma Finish_error_latch (d : AttachmentDecoder)
    (r : (List Nat × Option AttachmentCryptoErrorType) × AttachmentDecoder)
    (e : AttachmentCryptoErrorType)
    (hfin : d.Finish = some r) (h : r.1.2 = some e) :
    r.1.1 = [] ∧ r.2.err = some e := by
  cases hd : d.err with
  | some e0 =>
    rw [Finish_err d e0 hd] at hfin
    have hr := Option.some.inj hfin
    subst hr
    dsimp only at h
    have he := Option.some.inj h
    subst he
    exact ⟨rfl, hd⟩
  | none =>
    rw [AttachmentDecoder.Finish, hd] at hfin
    dsimp only at hfin
    by_cases hb : PacketLength ≤ d.buf.length
    · rw [if_pos hb] at hfin
      exact absurd hfin (by simp)
    · rw [if_neg hb] at hfin
      cases hop : openPacket d.buf d.chunkNum d.encKey d.verifyKey d.nonce with
      | error e0 =>
        rw [hop] at hfin
        have hr := Option.some.inj hfin
        subst hr
        dsimp only at h
        have he := Option.some.inj h
        subst he
        exact ⟨rfl, rfl⟩
      | ok plaintext =>
        rw [hop] at hfin
        have hr := Option.some.inj hfin
        subst hr
        dsimp only at h
        exact absurd h (by simp)

/-- C5: once a decoder call returns an error, that error is latched — every
subsequent `Write` or `Finish` returns the same error value and no
plaintext; and the call that first fails returns no output bytes. -/
theorem C5_sticky_error (d : AttachmentDecoder) (x y : List Nat)
    (e : AttachmentCryptoErrorType) :
    ((d.Write x).1.2 = some e →
      (d.Write x).1.1 = [] ∧
      ((d.Write x).2).Write y = (([], some e), (d.Write x).2) ∧
      ((d.Write x).2).Finish = some (([], some e), (d.Write x).2)) ∧
    (∀ r, d.Finish = some r → r.1.2 = some e →
      r.1.1 = [] ∧
      r.2.Write y = (([], some e), r.2) ∧
      r.2.Finish = some (([], some e), r.2)) := by
  constructor
  · intro h
    obtain ⟨ho, herr⟩ := Write_error_latch d x e h
    exact ⟨ho, Write_err _ y e herr, Finish_err _ e herr⟩
  · intro r hfin h
    obtain ⟨ho, herr⟩ := Finish_error_latch d r e hfin h
    exact ⟨ho, Write_err _ y e herr, Finish_err _ e herr⟩

/-- C5 witness: a decoder whose sticky slot holds `BadSecretbox`. -/
theorem C5_witness :
    ((⟨[], [], [], [], 0, some .BadSecretbox⟩
        : AttachmentDecoder).Write []).1.1 = [] ∧
    (((⟨[], [], [], [], 0, some .BadSecretbox⟩
        : AttachmentDecoder).Write []).2).Write []
      = (([], some .BadSecretbox),
         ((⟨[], [], [], [], 0, some .BadSecretbox⟩
            : AttachmentDecoder).Write []).2) ∧
    (((⟨[], [], [], [], 0, some .BadSecretbox⟩
        : AttachmentDecoder).Write []).2).Finish
      = some (([], some .BadSecretbox),
         ((⟨[], [], [], [], 0, some .BadSecretbox⟩
            : AttachmentDecoder).Write []).2) :=
  (C5_sticky_error ⟨[], [], [], [], 0, some .BadSecretbox⟩ [] []
    .BadSecretbox).1 rfl

-- ===========================================================================
-- Claim C7: encoder buffer invariant
-- ===========================================================================

lemma encLoopBufLens_le :
    ∀ (N : Nat) (e : AttachmentEncoder), e.buf.length ≤ N →
      ∀ l ∈ encLoopBufLens e, l ≤ e.buf.length := by
  intro N
  induction N with
  | zero =>
    intro e he l hl
    rw [encLoopBufLens, dif_neg (by simp only [PlaintextChunkLength]; omega)]
      at hl
    simp at hl
    omega
  | succ N ih =>
    intro e he l hl
    by_cases h : PlaintextChunkLength ≤ e.buf.length
    · rw [encLoopBufLens, dif_pos h] at hl
      rcases List.mem_cons.mp hl with rfl | hl2
      · exact le_rfl
      · have := ih { e with buf := e.buf.drop PlaintextChunkLength, chunkNum := e.chunkNum + 1 }
          (by simp only [List.length_drop, PlaintextChunkLength] at *; omega)
          l hl2
        simp only [List.length_drop] at this
        omega
    · rw [encLoopBufLens, dif_neg h] at hl
      simp at hl
      omega

/-- C7: after every `Write` the buffer holds strictly fewer than 2^20 bytes
(so `Finish`'s panic branch is unreachable from reachable states), and
during a `Write` call every buffer length the loop observes is at most
2^20 - 1 plus the call's input size. -/
theorem C7_buffer_invariant :
    (∀ (e : AttachmentEncoder) (pt : List Nat),
      ((e.Write pt).2).buf.length < PlaintextChunkLength) ∧
    (∀ e : AttachmentEncoder, e.buf.length < PlaintextChunkLength →
      ∃ r, e.Finish = some r) ∧
    (∀ (e : AttachmentEncoder) (pt : List Nat),
      e.buf.length < PlaintextChunkLength →
      ∀ l ∈ encLoopBufLens { e with buf := e.buf ++ pt },
        l ≤ (PlaintextChunkLength - 1) + pt.length) := by
  refine ⟨?_, ?_, ?_⟩
  · intro e pt
    exact encWriteLoop_buf_lt { e with buf := e.buf ++ pt }
  · intro e he
    exact ⟨_, Finish_of_lt e he⟩
  · intro e pt he l hl
    have := encLoopBufLens_le
      ({ e with buf := e.buf ++ pt } : AttachmentEncoder).buf.length _ le_rfl l hl
    simp only [List.length_append] at this
    simp only [PlaintextChunkLength] at *
    omega

/-- C7 witness: a fresh encoder and a one-byte write. -/
theorem C7_witness :
    ((NewAttachmentEncoder [] [] []).Write [1]).2.buf.length
      < PlaintextChunkLength ∧
    (∃ r, (NewAttachmentEncoder [] [] []).Finish = some r) ∧
    (∀ l ∈ encLoopBufLens { NewAttachmentEncoder [] [] [] with
        buf := (NewAttachmentEncoder [] [] []).buf ++ [1] },
      l ≤ (PlaintextChunkLength - 1) + [1].length) :=
  ⟨C7_buffer_invariant.1 (NewAttachmentEncoder [] [] []) [1],
   C7_buffer_invariant.2.1 (NewAttachmentEncoder [] [] []) (by decide),
   C7_buffer_invariant.2.2 (NewAttachmentEncoder [] [] []) [1] (by decide)⟩
